import Mathlib

/-!
Verification of the prefix-code codec layered on the `bitarray` bit-sequence
type (`bitarray/__init__.py`).

The pure-Python core consists of `_tree_insert`, `_mk_tree` and
`_check_codedict`, plus the thin `bitarray.decode` / `bitarray.iterdecode` /
`bitarray.encode` wrappers, the `bitarray.__hash__` override and the
`frozenbitarray` subclass whose mutators all raise `NotImplementedError`.
Those are translated here directly from the source.

The traversal engines `_decode` / `_iterdecode` / `_encode` and the raw
bit-storage live in the native `_bitarray` extension, which is not part of
the repository sources available here; those parts are modelled from the
specification and are marked as such in their doc comments.

A bit sequence is embedded as `List Bool`, a codeword as a non-empty
`List Bool`, a code table as an association list.  Symbols are an opaque
type `α`; as in Python, a symbol is never equal to the empty list `[]` and
subscripting a symbol raises a `TypeError`.
-/

set_option autoImplicit false
set_option maxHeartbeats 1000000

/-- Python exception values observable from the codec and the two
bit-sequence classes.  `malformedCode` / `incompleteCode` stand for the
decode-time traversal failures of the native engine (spec taxonomy). -/
inductive PyErr where
  | typeError (msg : String)
  | valueError (msg : String)
  | indexError
  | keyError
  | notImplementedError
  | malformedCode
  | incompleteCode
  deriving DecidableEq

/-- The nested-list trie of `_mk_tree`: the Python value `[]` is `empty`,
a two-element list `[l, r]` is `node l r`, and a bare stored symbol is
`leaf s`. -/
inductive PyTree (α : Type) where
  | empty
  | node (l r : PyTree α)
  | leaf (s : α)
  deriving DecidableEq

/-- The in-place replacement `if tree[v] == []: tree[v] = [[], []]`
performed by `_tree_insert` before it descends into `tree[v]`. -/
def fresh {α : Type} : PyTree α → PyTree α
  | .empty => .node .empty .empty
  | t => t

/-- Translation of `_tree_insert(tree, sym, ba)`.

  - `ba[0]` on an empty bitarray raises `IndexError`.
  - Subscripting a stored leaf symbol (`tree[v]` with `tree` a symbol)
    raises `TypeError`; comparing a symbol with `[]` yields `False`.
  - Subscripting the Python value `[]` raises `IndexError`.
  - With more than one bit left, an `empty` slot is first replaced by a
    fresh `[[], []]` node (`fresh`), then the insertion recurses into the
    slot; an exception propagates to the caller.
  - At the last bit, a non-`empty` slot raises
    `ValueError("prefix code ambiguous")`, otherwise the leaf is stored. -/
def _tree_insert {α : Type} : PyTree α → α → List Bool → Except PyErr (PyTree α)
  | _, _, [] => .error .indexError
  | .leaf _, _, _ :: _ => .error (.typeError "object is not subscriptable")
  | .empty, _, _ :: _ => .error .indexError
  | .node l r, sym, [v] =>
    match (if v then r else l) with
    | .empty => .ok (if v then .node l (.leaf sym) else .node (.leaf sym) r)
    | _ => .error (.valueError "prefix code ambiguous")
  | .node l r, sym, v :: b :: rest =>
    (_tree_insert (fresh (if v then r else l)) sym (b :: rest)).map
      (fun c => if v then PyTree.node l c else PyTree.node c r)

/-- The loop of `_mk_tree`: insert the entries one after the other into the
accumulated tree; a raised exception aborts the whole build. -/
def _mk_tree_from {α : Type} : PyTree α → List (α × List Bool) → Except PyErr (PyTree α)
  | t, [] => .ok t
  | t, (sym, ba) :: rest =>
    match _tree_insert t sym ba with
    | .error e => .error e
    | .ok t2 => _mk_tree_from t2 rest

/-- Translation of `_mk_tree(codedict)`: start from the root placeholder
`[[], []]` and insert every `(symbol, codeword)` entry in iteration
order. -/
def _mk_tree {α : Type} (entries : List (α × List Bool)) : Except PyErr (PyTree α) :=
  _mk_tree_from (PyTree.node PyTree.empty PyTree.empty) entries

/-- A value stored in a code table: either a bit sequence (a `bitarray`
when `frozen = false`, a `frozenbitarray` when `frozen = true`) or a value
of any other type. -/
inductive CodeVal where
  | ba (bits : List Bool) (frozen : Bool)
  | other
  deriving DecidableEq

/-- The argument passed to the codec as a code table: a Python dict (an
association list of symbol/value entries in iteration order) or a value
that is not a dict at all. -/
inductive TableArg (α : Type) where
  | dict (entries : List (α × CodeVal))
  | nonDict
  deriving DecidableEq

/-- The per-entry loop of `_check_codedict`: `isinstance(v, (bitarray,
frozenbitarray))` first, then `v.length() == 0`. -/
def checkVals {α : Type} : List (α × CodeVal) → Except PyErr Unit
  | [] => .ok ()
  | (_, v) :: rest =>
    match v with
    | .other => .error (.typeError "bitarray expected for dictionary value")
    | .ba bits _ => if bits.length = 0 then .error (.valueError "non-empty bitarray expected")
        else checkVals rest

/-- Translation of `_check_codedict(codedict)`. -/
def _check_codedict {α : Type} : TableArg α → Except PyErr Unit
  | .nonDict => .error (.typeError "dictionary expected")
  | .dict entries =>
    if entries.length = 0 then .error (.valueError "prefix code empty")
    else checkVals entries

/-- The bit content of a table value.  `.other` values never reach the trie
builder because `_check_codedict` rejects them first; the `[]` returned for
them here is an arbitrary placeholder. -/
def codeBits : CodeVal → List Bool
  | .ba bits _ => bits
  | .other => []

/-- The symbol/codeword entries a table argument holds, as consumed by
`_mk_tree` (for `.nonDict` nothing ever reaches the builder). -/
def argEntries {α : Type} : TableArg α → List (α × List Bool)
  | .dict entries => entries.map (fun p => (p.1, codeBits p.2))
  | .nonDict => []

/-- A code table whose values are mutable `bitarray` codewords. -/
def plainTable {α : Type} (entries : List (α × List Bool)) : TableArg α :=
  .dict (entries.map (fun p => (p.1, CodeVal.ba p.2 false)))

/-- A code table whose values are immutable `frozenbitarray` codewords. -/
def frozenTable {α : Type} (entries : List (α × List Bool)) : TableArg α :=
  .dict (entries.map (fun p => (p.1, CodeVal.ba p.2 true)))

/-- Modelled from the spec: the batch/lazy decoding traversal of the native
`_decode` / `_iterdecode` engines (spec section 4.4).  A cursor starts at
the trie root; each input bit selects a child; reaching a Leaf emits its
symbol and resets the cursor; reaching an Empty slot fails with a
malformed-code error; input ending while a codeword is underway
(`started = true` away from the root) fails with an incomplete-code
error. -/
def decodeFrom {α : Type} (root : PyTree α) : PyTree α → Bool → List Bool → Except PyErr (List α)
  | _, started, [] => if started then .error .incompleteCode else .ok []
  | cur, _, b :: bs =>
    match cur with
    | .node l r =>
      match (if b then r else l) with
      | .empty => .error .malformedCode
      | .leaf s => (decodeFrom root root false bs).map (fun out => s :: out)
      | .node l2 r2 => decodeFrom root (.node l2 r2) true bs
    | _ => .error .malformedCode

/-- Python dict lookup `codedict[sym]` on the entry list. -/
def dictLookup {α : Type} [DecidableEq α] (entries : List (α × List Bool)) (s : α) :
    Option (List Bool) :=
  match entries with
  | [] => none
  | (k, v) :: rest => if s = k then some v else dictLookup rest s

/-- Modelled from the spec: the native `_encode` engine (spec section 4.3).
For each symbol in order the codeword is looked up and appended bit by bit
to the output; an unknown symbol raises a lookup error after the codewords
of the preceding symbols have already been appended. -/
def encodeAppend {α : Type} [DecidableEq α] (entries : List (α × List Bool)) :
    List α → List Bool → List Bool × Option PyErr
  | [], out => (out, none)
  | s :: rest, out =>
    match dictLookup entries s with
    | none => (out, some .keyError)
    | some c => encodeAppend entries rest (out ++ c)

/-- Translation of `bitarray.decode(codedict)`: validate the table, build
the trie, run the batch decoder over the bit content `self`. -/
def bitarray_decode {α : Type} (tbl : TableArg α) (self : List Bool) :
    Except PyErr (List α) :=
  match _check_codedict tbl with
  | .error e => .error e
  | .ok _ =>
    match _mk_tree (argEntries tbl) with
    | .error e => .error e
    | .ok t => decodeFrom t t false self

/-- Translation of `bitarray.iterdecode(codedict)`: validate the table,
build the trie, return the lazy decoder, modelled as its initial state
(the trie paired with the bit content it will consume). -/
def bitarray_iterdecode {α : Type} (tbl : TableArg α) (self : List Bool) :
    Except PyErr (PyTree α × List Bool) :=
  match _check_codedict tbl with
  | .error e => .error e
  | .ok _ =>
    match _mk_tree (argEntries tbl) with
    | .error e => .error e
    | .ok t => .ok (t, self)

/-- Translation of `bitarray.encode(codedict, iterable)`: validate the
table, then extend the bit content `self` symbol by symbol; the first
component is the (possibly partially extended) content, the second the
exception raised, if any. -/
def bitarray_encode {α : Type} [DecidableEq α] (tbl : TableArg α) (self : List Bool)
    (syms : List α) : List Bool × Option PyErr :=
  match _check_codedict tbl with
  | .error e => (self, some e)
  | .ok _ => encodeAppend (argEntries tbl) syms self

/-! State-threading variants for the frame property: the code table is
passed through every stage of each codec operation and handed back; the
Python source contains no assignment into `codedict` (the only in-place
mutation, `tree[v] = ...` inside `_tree_insert`, targets the fresh tree,
which is modelled by value-threading in `_tree_insert` itself), so each
stage returns the table it received. -/

/-- `_check_codedict` only reads the table. -/
def check_codedict_st {α : Type} (tbl : TableArg α) : Except PyErr Unit × TableArg α :=
  (_check_codedict tbl, tbl)

/-- `_mk_tree` only iterates over `codedict.items()` and mutates the fresh
tree it allocated itself. -/
def mk_tree_st {α : Type} (tbl : TableArg α) : Except PyErr (PyTree α) × TableArg α :=
  (_mk_tree (argEntries tbl), tbl)

/-- `bitarray.decode` with the table threaded through validation, trie
construction and the traversal. -/
def bitarray_decode_st {α : Type} (tbl : TableArg α) (self : List Bool) :
    Except PyErr (List α) × TableArg α :=
  match check_codedict_st tbl with
  | (.error e, tbl1) => (.error e, tbl1)
  | (.ok _, tbl1) =>
    match mk_tree_st tbl1 with
    | (.error e, tbl2) => (.error e, tbl2)
    | (.ok t, tbl2) => (decodeFrom t t false self, tbl2)

/-- `bitarray.iterdecode` with the table threaded through. -/
def bitarray_iterdecode_st {α : Type} (tbl : TableArg α) (self : List Bool) :
    Except PyErr (PyTree α × List Bool) × TableArg α :=
  match check_codedict_st tbl with
  | (.error e, tbl1) => (.error e, tbl1)
  | (.ok _, tbl1) =>
    match mk_tree_st tbl1 with
    | (.error e, tbl2) => (.error e, tbl2)
    | (.ok t, tbl2) => (.ok (t, self), tbl2)

/-- The symbol loop of the native `_encode` with the table threaded
through each lookup (modelled from the spec, section 4.3: the encoder
performs pure lookups and holds no persistent state). -/
def encodeAppend_st {α : Type} [DecidableEq α] :
    List α → List Bool → TableArg α → (List Bool × Option PyErr) × TableArg α
  | [], out, tbl => ((out, none), tbl)
  | s :: rest, out, tbl =>
    match dictLookup (argEntries tbl) s with
    | none => ((out, some .keyError), tbl)
    | some c => encodeAppend_st rest (out ++ c) tbl

/-- `bitarray.encode` with the table threaded through. -/
def bitarray_encode_st {α : Type} [DecidableEq α] (tbl : TableArg α) (self : List Bool)
    (syms : List α) : (List Bool × Option PyErr) × TableArg α :=
  match check_codedict_st tbl with
  | (.error e, tbl1) => ((self, some e), tbl1)
  | (.ok _, tbl1) => encodeAppend_st syms self tbl1

/-! Specification-side notions used in the theorems: the prefix order on
codewords, and the leaf-paths of a trie. -/

/-- Boolean test: `c1` is an initial segment of `c2`. -/
def isPrefB : List Bool → List Bool → Bool
  | [], _ => true
  | _ :: _, [] => false
  | a :: as, b :: bs => (a == b) && isPrefB as bs

/-- `c1` is an initial segment of `c2` (propositional form). -/
def IsPref (c1 c2 : List Bool) : Prop := isPrefB c1 c2 = true

instance (c1 c2 : List Bool) : Decidable (IsPref c1 c2) := by
  unfold IsPref; infer_instance

theorem isPref_nil_left (c : List Bool) : IsPref [] c := rfl

theorem isPref_cons {a b : Bool} {as bs : List Bool} :
    IsPref (a :: as) (b :: bs) ↔ a = b ∧ IsPref as bs := by
  simp [IsPref, isPrefB]

theorem isPref_nil_right {c : List Bool} (h : IsPref c []) : c = [] := by
  cases c with
  | nil => rfl
  | cons a as => simp [IsPref, isPrefB] at h

theorem isPref_refl (c : List Bool) : IsPref c c := by
  induction c with
  | nil => exact isPref_nil_left []
  | cons a as ih => exact isPref_cons.mpr ⟨rfl, ih⟩

theorem isPref_append (c t : List Bool) : IsPref c (c ++ t) := by
  induction c with
  | nil => exact isPref_nil_left t
  | cons a as ih => exact isPref_cons.mpr ⟨rfl, ih⟩

theorem isPref_iff_exists {c1 c2 : List Bool} : IsPref c1 c2 ↔ ∃ t, c1 ++ t = c2 := by
  constructor
  · intro h
    induction c1 generalizing c2 with
    | nil => exact ⟨c2, rfl⟩
    | cons a as ih =>
      cases c2 with
      | nil => simp [IsPref, isPrefB] at h
      | cons b bs =>
        obtain ⟨rfl, h2⟩ := isPref_cons.mp h
        obtain ⟨t, ht⟩ := ih h2
        exact ⟨t, by simp [ht]⟩
  · rintro ⟨t, rfl⟩
    exact isPref_append c1 t

/-- Mutual incomparability of two codewords in the prefix order. -/
def Incomp (c1 c2 : List Bool) : Prop := ¬ IsPref c1 c2 ∧ ¬ IsPref c2 c1

instance (c1 c2 : List Bool) : Decidable (Incomp c1 c2) := by
  unfold Incomp; infer_instance

theorem incomp_symm {c1 c2 : List Bool} (h : Incomp c1 c2) : Incomp c2 c1 := ⟨h.2, h.1⟩

/-- A code table is prefix-free when the codewords of any two distinct
entries are mutually incomparable (this also rules out duplicate
codewords, since every list is a prefix of itself). -/
def PrefFree {α : Type} (entries : List (α × List Bool)) : Prop :=
  entries.Pairwise (fun p q => Incomp p.2 q.2)

instance {α : Type} (entries : List (α × List Bool)) : Decidable (PrefFree entries) := by
  unfold PrefFree; infer_instance

/-- The leaf paths of a trie: every `(symbol, root-to-leaf bit path)` pair. -/
def leaves {α : Type} : PyTree α → List (α × List Bool)
  | .empty => []
  | .leaf s => [(s, ([] : List Bool))]
  | .node l r =>
    (leaves l).map (fun p => (p.1, false :: p.2)) ++
      (leaves r).map (fun p => (p.1, true :: p.2))

/-- Whether some leaf occurs in the trie. -/
def hasLeaf {α : Type} : PyTree α → Bool
  | .empty => false
  | .leaf _ => true
  | .node l r => hasLeaf l || hasLeaf r

/-- Structural invariant of built tries: below every internal node there is
at least one leaf (no dead `[[], []]` placeholders survive an insertion). -/
def tidy {α : Type} : PyTree α → Bool
  | .empty => true
  | .leaf _ => true
  | .node l r => (hasLeaf l || hasLeaf r) && (tidy l && tidy r)

/-- The subtree reached from `t` by descending child-by-child along `p`. -/
def nodeAt {α : Type} : PyTree α → List Bool → Option (PyTree α)
  | t, [] => some t
  | .node l r, b :: bs => nodeAt (if b then r else l) bs
  | .leaf _, _ :: _ => none
  | .empty, _ :: _ => none

theorem mem_leaves_leaf {α : Type} {s s1 : α} {c : List Bool} :
    (s1, c) ∈ leaves (PyTree.leaf s) ↔ s1 = s ∧ c = [] := by
  simp [leaves]

theorem not_mem_leaves_node_nil {α : Type} {s : α} {l r : PyTree α} :
    (s, ([] : List Bool)) ∉ leaves (PyTree.node l r) := by
  simp [leaves]

theorem mem_leaves_node_elim {α : Type} {s : α} {c : List Bool} {l r : PyTree α}
    (h : (s, c) ∈ leaves (PyTree.node l r)) :
    ∃ b c2, c = b :: c2 ∧ (s, c2) ∈ leaves (if b then r else l) := by
  simp only [leaves, List.mem_append, List.mem_map] at h
  rcases h with ⟨p, hp, he⟩ | ⟨p, hp, he⟩
  · injection he with h1 h2
    refine ⟨false, p.2, h2.symm, ?_⟩
    have hp' : (p.1, p.2) ∈ leaves l := by simpa using hp
    rw [h1] at hp'
    simpa using hp'
  · injection he with h1 h2
    refine ⟨true, p.2, h2.symm, ?_⟩
    have hp' : (p.1, p.2) ∈ leaves r := by simpa using hp
    rw [h1] at hp'
    simpa using hp'

theorem mem_leaves_node_intro {α : Type} {s : α} {c : List Bool} {l r : PyTree α}
    (b : Bool) (h : (s, c) ∈ leaves (if b then r else l)) :
    (s, b :: c) ∈ leaves (PyTree.node l r) := by
  cases b
  · simp only [Bool.false_eq_true, if_false] at h
    simp only [leaves, List.mem_append, List.mem_map]
    exact Or.inl ⟨(s, c), h, rfl⟩
  · simp only [if_true] at h
    simp only [leaves, List.mem_append, List.mem_map]
    exact Or.inr ⟨(s, c), h, rfl⟩

/-- Leaf paths of a trie form an antichain in the prefix order: a leaf
terminates its path, so no other leaf path can extend it. -/
theorem leaves_antichain {α : Type} (t : PyTree α) :
    ∀ {s1 c1 s2 c2}, (s1, c1) ∈ leaves t → (s2, c2) ∈ leaves t →
      IsPref c1 c2 → c1 = c2 ∧ s1 = s2 := by
  induction t with
  | empty => intro s1 c1 s2 c2 h1 _ _; simp [leaves] at h1
  | leaf s =>
    intro s1 c1 s2 c2 h1 h2 _
    obtain ⟨rfl, rfl⟩ := mem_leaves_leaf.mp h1
    obtain ⟨rfl, rfl⟩ := mem_leaves_leaf.mp h2
    exact ⟨rfl, rfl⟩
  | node l r ihl ihr =>
    intro s1 c1 s2 c2 h1 h2 hp
    obtain ⟨b1, d1, rfl, h1'⟩ := mem_leaves_node_elim h1
    obtain ⟨b2, d2, rfl, h2'⟩ := mem_leaves_node_elim h2
    obtain ⟨rfl, hp'⟩ := isPref_cons.mp hp
    cases b1
    · simp only [Bool.false_eq_true, if_false] at h1' h2'
      obtain ⟨rfl, rfl⟩ := ihl h1' h2' hp'
      exact ⟨rfl, rfl⟩
    · simp only [if_true] at h1' h2'
      obtain ⟨rfl, rfl⟩ := ihr h1' h2' hp'
      exact ⟨rfl, rfl⟩

theorem mem_leaves_nodeAt {α : Type} (t : PyTree α) :
    ∀ {s c}, (s, c) ∈ leaves t → nodeAt t c = some (PyTree.leaf s) := by
  induction t with
  | empty => intro s c h; simp [leaves] at h
  | leaf s0 =>
    intro s c h
    obtain ⟨rfl, rfl⟩ := mem_leaves_leaf.mp h
    rfl
  | node l r ihl ihr =>
    intro s c h
    obtain ⟨b, d, rfl, h'⟩ := mem_leaves_node_elim h
    cases b
    · simpa [nodeAt] using ihl (by simpa using h')
    · simpa [nodeAt] using ihr (by simpa using h')

theorem nodeAt_leaf_mem {α : Type} {s : α} :
    ∀ (c : List Bool) (t : PyTree α), nodeAt t c = some (PyTree.leaf s) →
      (s, c) ∈ leaves t := by
  intro c
  induction c with
  | nil =>
    intro t h
    simp only [nodeAt, Option.some_inj] at h
    subst h
    exact mem_leaves_leaf.mpr ⟨rfl, rfl⟩
  | cons b bs ih =>
    intro t h
    cases t with
    | empty => simp [nodeAt] at h
    | leaf s0 => simp [nodeAt] at h
    | node l r =>
      simp only [nodeAt] at h
      exact mem_leaves_node_intro b (ih _ h)

theorem nodeAt_lift {α : Type} {s : α} :
    ∀ (p : List Bool) (t u : PyTree α) (q : List Bool), nodeAt t p = some u →
      (s, q) ∈ leaves u → (s, p ++ q) ∈ leaves t := by
  intro p
  induction p with
  | nil =>
    intro t u q h hm
    simp only [nodeAt, Option.some_inj] at h
    subst h
    simpa using hm
  | cons b bs ih =>
    intro t u q h hm
    cases t with
    | empty => simp [nodeAt] at h
    | leaf s0 => simp [nodeAt] at h
    | node l r =>
      simp only [nodeAt] at h
      exact mem_leaves_node_intro b (ih _ _ _ h hm)

theorem hasLeaf_iff {α : Type} (t : PyTree α) :
    hasLeaf t = true ↔ ∃ s c, (s, c) ∈ leaves t := by
  induction t with
  | empty => simp [hasLeaf, leaves]
  | leaf s => simp [hasLeaf, leaves]
  | node l r ihl ihr =>
    simp only [hasLeaf, Bool.or_eq_true, ihl, ihr]
    constructor
    · rintro (⟨s, c, h⟩ | ⟨s, c, h⟩)
      · exact ⟨s, false :: c, mem_leaves_node_intro false (by simpa using h)⟩
      · exact ⟨s, true :: c, mem_leaves_node_intro true (by simpa using h)⟩
    · rintro ⟨s, c, h⟩
      obtain ⟨b, d, rfl, h'⟩ := mem_leaves_node_elim h
      cases b
      · exact Or.inl ⟨s, d, by simpa using h'⟩
      · exact Or.inr ⟨s, d, by simpa using h'⟩

theorem leaves_nil_eq_leaf {α : Type} {s : α} {u : PyTree α}
    (h : (s, ([] : List Bool)) ∈ leaves u) : u = PyTree.leaf s := by
  cases u with
  | empty => simp [leaves] at h
  | leaf s0 => obtain ⟨rfl, -⟩ := mem_leaves_leaf.mp h; rfl
  | node l r => exact absurd h not_mem_leaves_node_nil

theorem leaves_cons_node {α : Type} {s : α} {b : Bool} {d : List Bool} {u : PyTree α}
    (h : (s, b :: d) ∈ leaves u) : ∃ l2 r2, u = PyTree.node l2 r2 := by
  cases u with
  | empty => simp [leaves] at h
  | leaf s0 => obtain ⟨-, h2⟩ := mem_leaves_leaf.mp h; cases h2
  | node l r => exact ⟨l, r, rfl⟩

theorem fresh_node {α : Type} (l r : PyTree α) :
    fresh (PyTree.node l r) = PyTree.node l r := rfl

theorem fresh_leaf {α : Type} (s : α) : fresh (PyTree.leaf s) = PyTree.leaf s := rfl

/-- Inserting a codeword that strictly extends an already-stored codeword:
the walk reaches the stored leaf with bits still to consume, recurses into
the bare symbol, and subscripting it raises a `TypeError` (not the
ambiguous-prefix `ValueError`). -/
theorem tree_insert_extending_stored {α : Type} (sym : α) :
    ∀ (ba : List Bool) (l r : PyTree α) (s2 : α) (c2 : List Bool),
      (s2, c2) ∈ leaves (PyTree.node l r) → IsPref c2 ba → c2 ≠ ba →
      _tree_insert (PyTree.node l r) sym ba =
        .error (.typeError "object is not subscriptable") := by
  intro ba
  induction ba with
  | nil =>
    intro l r s2 c2 hm hp hne
    exact absurd (isPref_nil_right hp) hne
  | cons v rest ih =>
    intro l r s2 c2 hm hp hne
    obtain ⟨b, d, rfl, hm'⟩ := mem_leaves_node_elim hm
    obtain ⟨rfl, hp'⟩ := isPref_cons.mp hp
    cases rest with
    | nil =>
      exact absurd (by rw [isPref_nil_right hp']) hne
    | cons w rest2 =>
      have hdne : d ≠ w :: rest2 := fun h => hne (by rw [h])
      cases d with
      | nil =>
        have hleaf := leaves_nil_eq_leaf hm'
        show Except.map _ (_tree_insert (fresh (if b then r else l)) sym (w :: rest2)) = _
        rw [hleaf, fresh_leaf]
        rfl
      | cons e d2 =>
        obtain ⟨l2, r2, hnode⟩ := leaves_cons_node hm'
        rw [hnode] at hm'
        show Except.map _ (_tree_insert (fresh (if b then r else l)) sym (w :: rest2)) = _
        rw [hnode, fresh_node, ih l2 r2 s2 (e :: d2) hm' hp' hdne]
        rfl

theorem leaves_ne_empty {α : Type} {s : α} {c : List Bool} {u : PyTree α}
    (h : (s, c) ∈ leaves u) : u ≠ PyTree.empty := by
  intro he; rw [he] at h; simp [leaves] at h

/-- Inserting a codeword of which some already-stored codeword is an
extension (equal codewords included): the final bit finds an occupied slot
and the build raises `ValueError("prefix code ambiguous")`. -/
theorem tree_insert_stored_extension {α : Type} (sym : α) :
    ∀ (ba : List Bool) (l r : PyTree α) (s2 : α) (c2 : List Bool),
      (s2, c2) ∈ leaves (PyTree.node l r) → IsPref ba c2 → ba ≠ [] →
      _tree_insert (PyTree.node l r) sym ba =
        .error (.valueError "prefix code ambiguous") := by
  intro ba
  induction ba with
  | nil =>
    intro l r s2 c2 hm hp hne
    exact absurd rfl hne
  | cons v rest ih =>
    intro l r s2 c2 hm hp hne
    obtain ⟨b, d, rfl, hm'⟩ := mem_leaves_node_elim hm
    obtain ⟨rfl, hp'⟩ := isPref_cons.mp hp
    cases rest with
    | nil =>
      have hch := leaves_ne_empty hm'
      cases hc : (if v then r else l) with
      | empty => exact absurd hc hch
      | leaf s0 =>
        show (match (if v then r else l) with
          | PyTree.empty => Except.ok (if v then PyTree.node l (PyTree.leaf sym)
              else PyTree.node (PyTree.leaf sym) r)
          | _ => Except.error (PyErr.valueError "prefix code ambiguous")) = _
        rw [hc]
      | node l2 r2 =>
        show (match (if v then r else l) with
          | PyTree.empty => Except.ok (if v then PyTree.node l (PyTree.leaf sym)
              else PyTree.node (PyTree.leaf sym) r)
          | _ => Except.error (PyErr.valueError "prefix code ambiguous")) = _
        rw [hc]
    | cons w rest2 =>
      cases d with
      | nil =>
        have : w :: rest2 = [] := isPref_nil_right hp'
        cases this
      | cons e d2 =>
        obtain ⟨l2, r2, hnode⟩ := leaves_cons_node hm'
        rw [hnode] at hm'
        show Except.map _ (_tree_insert (fresh (if v then r else l)) sym (w :: rest2)) = _
        rw [hnode, fresh_node, ih l2 r2 s2 (e :: d2) hm' hp' (by simp)]
        rfl

theorem fresh_empty {α : Type} :
    fresh (PyTree.empty : PyTree α) = PyTree.node PyTree.empty PyTree.empty := rfl

theorem tree_insert_two {α : Type} (l r : PyTree α) (sym : α) (v w : Bool)
    (rest : List Bool) :
    _tree_insert (PyTree.node l r) sym (v :: w :: rest) =
      (_tree_insert (fresh (if v then r else l)) sym (w :: rest)).map
        (fun c => if v then PyTree.node l c else PyTree.node c r) := rfl

theorem tree_insert_one_empty {α : Type} (l r : PyTree α) (sym : α) (v : Bool)
    (h : (if v then r else l) = PyTree.empty) :
    _tree_insert (PyTree.node l r) sym [v] =
      .ok (if v then PyTree.node l (PyTree.leaf sym)
        else PyTree.node (PyTree.leaf sym) r) := by
  show (match (if v then r else l) with
    | PyTree.empty => Except.ok (if v then PyTree.node l (PyTree.leaf sym)
        else PyTree.node (PyTree.leaf sym) r)
    | _ => Except.error (PyErr.valueError "prefix code ambiguous")) = _
  rw [h]

theorem tidy_node_iff {α : Type} {l r : PyTree α} :
    tidy (PyTree.node l r) = true ↔
      (hasLeaf l || hasLeaf r) = true ∧ tidy l = true ∧ tidy r = true := by
  simp [tidy, Bool.and_eq_true]

theorem hasLeaf_node {α : Type} (l r : PyTree α) :
    hasLeaf (PyTree.node l r) = (hasLeaf l || hasLeaf r) := rfl

theorem leaves_node {α : Type} (l r : PyTree α) :
    leaves (PyTree.node l r) =
      (leaves l).map (fun p => (p.1, false :: p.2)) ++
        (leaves r).map (fun p => (p.1, true :: p.2)) := rfl

/-- Inserting a codeword incomparable with every stored codeword succeeds;
the result is again a trie whose every internal node has a leaf below it,
and its leaf paths are those before plus the new `(symbol, codeword)`
pair. -/
theorem tree_insert_ok {α : Type} (sym : α) :
    ∀ (ba : List Bool) (l r : PyTree α),
      ba ≠ [] → tidy l = true → tidy r = true →
      (∀ s2 c2, (s2, c2) ∈ leaves (PyTree.node l r) → ¬ IsPref c2 ba ∧ ¬ IsPref ba c2) →
      ∃ l2 r2, _tree_insert (PyTree.node l r) sym ba = .ok (PyTree.node l2 r2) ∧
        tidy (PyTree.node l2 r2) = true ∧
        List.Perm (leaves (PyTree.node l2 r2)) ((sym, ba) :: leaves (PyTree.node l r)) := by
  intro ba
  induction ba with
  | nil => intro l r hne; exact absurd rfl hne
  | cons v rest ih =>
    intro l r _ htl htr hcomp
    have hchild_tidy : tidy (if v then r else l) = true := by cases v <;> simpa
    have hchild_empty_or : (if v then r else l) = PyTree.empty ∨
        ∃ l0 r0, (if v then r else l) = PyTree.node l0 r0 := by
      cases hc : (if v then r else l) with
      | empty => exact Or.inl rfl
      | leaf s0 =>
        have hm : (s0, v :: []) ∈ leaves (PyTree.node l r) := by
          refine mem_leaves_node_intro v ?_
          rw [hc]
          exact mem_leaves_leaf.mpr ⟨rfl, rfl⟩
        have := (hcomp s0 [v] hm).1
        exfalso
        rcases rest with - | ⟨w, rest2⟩
        · exact this (isPref_refl [v])
        · exact this (isPref_cons.mpr ⟨rfl, isPref_nil_left _⟩)
      | node l0 r0 => exact Or.inr ⟨l0, r0, rfl⟩
    cases rest with
    | nil =>
      -- final bit: the selected slot must be empty, else some stored
      -- codeword would extend [v]
      have hempty : (if v then r else l) = PyTree.empty := by
        rcases hchild_empty_or with h | ⟨l0, r0, h⟩
        · exact h
        · exfalso
          have htc : tidy (PyTree.node l0 r0) = true := by rw [← h]; exact hchild_tidy
          obtain ⟨hhl, -, -⟩ := tidy_node_iff.mp htc
          rw [← hasLeaf_node] at hhl
          obtain ⟨s0, d, hmem⟩ := (hasLeaf_iff _).mp hhl
          have hm : (s0, v :: d) ∈ leaves (PyTree.node l r) := by
            refine mem_leaves_node_intro v ?_
            rw [h]
            exact hmem
          exact (hcomp s0 (v :: d) hm).2 (isPref_cons.mpr ⟨rfl, isPref_nil_left _⟩)
      rw [tree_insert_one_empty l r sym v hempty]
      cases v
      · simp only [Bool.false_eq_true, if_false] at hempty ⊢
        subst hempty
        refine ⟨PyTree.leaf sym, r, rfl, ?_, ?_⟩
        · simp [tidy_node_iff, hasLeaf, tidy, htr]
        · simp [leaves_node, leaves]
      · simp only [if_true] at hempty ⊢
        subst hempty
        refine ⟨l, PyTree.leaf sym, rfl, ?_, ?_⟩
        · simp [tidy_node_iff, hasLeaf, tidy, htl]
        · simp only [leaves_node, leaves, List.map_cons, List.map_nil]
          exact List.perm_middle
    | cons w rest2 =>
      rw [tree_insert_two]
      rcases hchild_empty_or with hc | ⟨l0, r0, hc⟩
      · -- empty slot: a fresh placeholder is created and filled below
        obtain ⟨l2, r2, hins, htidy2, hperm2⟩ :=
          ih PyTree.empty PyTree.empty (by simp) rfl rfl
            (by intro s2 c2 hm; simp [leaves_node, leaves] at hm)
        rw [hc, fresh_empty, hins]
        have hperm2' : List.Perm (leaves (PyTree.node l2 r2)) [(sym, w :: rest2)] := by
          simpa [leaves_node, leaves] using hperm2
        have hhl2 : hasLeaf (PyTree.node l2 r2) = true := by
          rw [hasLeaf_node]
          exact (tidy_node_iff.mp htidy2).1
        cases v
        · simp only [Bool.false_eq_true, if_false] at hc ⊢
          subst hc
          refine ⟨PyTree.node l2 r2, r, rfl, ?_, ?_⟩
          · exact tidy_node_iff.mpr ⟨by rw [hhl2]; rfl, htidy2, htr⟩
          · exact List.Perm.append_right _ (hperm2'.map _)
        · simp only [if_true] at hc ⊢
          subst hc
          refine ⟨l, PyTree.node l2 r2, rfl, ?_, ?_⟩
          · exact tidy_node_iff.mpr ⟨by rw [hhl2]; simp, htl, htidy2⟩
          · exact (List.Perm.append_left _ (hperm2'.map _)).trans List.perm_middle
      · -- occupied slot: descend into the existing subtree
        have htc : tidy (PyTree.node l0 r0) = true := by rw [← hc]; exact hchild_tidy
        obtain ⟨hhl0, htl0, htr0⟩ := tidy_node_iff.mp htc
        obtain ⟨l2, r2, hins, htidy2, hperm2⟩ :=
          ih l0 r0 (by simp) htl0 htr0
            (by
              intro s2 c2 hm
              have hm' : (s2, v :: c2) ∈ leaves (PyTree.node l r) := by
                refine mem_leaves_node_intro v ?_
                rw [hc]
                exact hm
              have := hcomp s2 (v :: c2) hm'
              constructor
              · intro hpf
                exact this.1 (isPref_cons.mpr ⟨rfl, hpf⟩)
              · intro hpf
                exact this.2 (isPref_cons.mpr ⟨rfl, hpf⟩))
        rw [hc, fresh_node, hins]
        have hhl2 : hasLeaf (PyTree.node l2 r2) = true := by
          rw [hasLeaf_node]
          exact (tidy_node_iff.mp htidy2).1
        cases v
        · simp only [Bool.false_eq_true, if_false] at hc ⊢
          subst hc
          refine ⟨PyTree.node l2 r2, r, rfl, ?_, ?_⟩
          · exact tidy_node_iff.mpr ⟨by rw [hhl2]; rfl, htidy2, htr⟩
          · exact List.Perm.append_right _ (hperm2.map _)
        · simp only [if_true] at hc ⊢
          subst hc
          refine ⟨l, PyTree.node l2 r2, rfl, ?_, ?_⟩
          · exact tidy_node_iff.mpr ⟨by rw [hhl2]; simp, htl, htidy2⟩
          · exact (List.Perm.append_left _ (hperm2.map _)).trans List.perm_middle

/-- Folding a list of mutually incomparable, non-empty codewords into a
trie succeeds and accumulates exactly their leaf paths. -/
theorem mk_tree_from_ok {α : Type} :
    ∀ (entries : List (α × List Bool)) (l r : PyTree α),
      tidy l = true → tidy r = true →
      (∀ p ∈ entries, p.2 ≠ []) →
      PrefFree entries →
      (∀ s2 c2 (q : α × List Bool), (s2, c2) ∈ leaves (PyTree.node l r) → q ∈ entries →
        Incomp c2 q.2) →
      ∃ l2 r2, _mk_tree_from (PyTree.node l r) entries = .ok (PyTree.node l2 r2) ∧
        tidy l2 = true ∧ tidy r2 = true ∧
        List.Perm (leaves (PyTree.node l2 r2)) (entries ++ leaves (PyTree.node l r)) := by
  intro entries
  induction entries with
  | nil =>
    intro l r htl htr _ _ _
    exact ⟨l, r, rfl, htl, htr, List.Perm.refl _⟩
  | cons p rest ih =>
    intro l r htl htr hcne hpf hcompat
    obtain ⟨s, c⟩ := p
    have hcne0 : c ≠ [] := hcne (s, c) (List.mem_cons_self _ _)
    obtain ⟨l2, r2, hins, htidy, hperm⟩ :=
      tree_insert_ok s c l r hcne0 htl htr
        (by
          intro s2 c2 hm
          have := hcompat s2 c2 (s, c) hm (List.mem_cons_self _ _)
          exact this)
    obtain ⟨hpf_head, hpf_rest⟩ := List.pairwise_cons.mp hpf
    have htl2 : tidy l2 = true := (tidy_node_iff.mp htidy).2.1
    have htr2 : tidy r2 = true := (tidy_node_iff.mp htidy).2.2
    obtain ⟨l3, r3, hfold, htl3, htr3, hperm3⟩ :=
      ih l2 r2 htl2 htr2
        (by intro q hq; exact hcne q (List.mem_cons_of_mem _ hq))
        hpf_rest
        (by
          intro s2 c2 q hm hq
          have hm' : (s2, c2) ∈ (s, c) :: leaves (PyTree.node l r) := hperm.mem_iff.mp hm
          rcases List.mem_cons.mp hm' with he | hold
          · injection he with h1 h2
            rw [h2]
            exact hpf_head q hq
          · exact hcompat s2 c2 q hold (List.mem_cons_of_mem _ hq))
    refine ⟨l3, r3, ?_, htl3, htr3, ?_⟩
    · show (match _tree_insert (PyTree.node l r) s c with
        | .error e => Except.error e
        | .ok t2 => _mk_tree_from t2 rest) = _
      rw [hins]
      exact hfold
    · exact hperm3.trans ((List.Perm.append_left rest hperm).trans List.perm_middle)

/-- A single insertion that returned a tree forces the inserted codeword to
be non-empty and incomparable with every codeword already stored. -/
theorem tree_insert_ok_necessary {α : Type} {sym : α} {ba : List Bool} {l r t2 : PyTree α}
    (hins : _tree_insert (PyTree.node l r) sym ba = .ok t2) :
    ba ≠ [] ∧ ∀ s2 c2, (s2, c2) ∈ leaves (PyTree.node l r) → Incomp c2 ba := by
  have hne : ba ≠ [] := by
    intro h
    rw [h] at hins
    exact Except.noConfusion hins
  refine ⟨hne, ?_⟩
  intro s2 c2 hm
  constructor
  · intro hpf
    by_cases heq : c2 = ba
    · have : _tree_insert (PyTree.node l r) sym ba =
          .error (.valueError "prefix code ambiguous") :=
        tree_insert_stored_extension sym ba l r s2 c2 hm (heq ▸ isPref_refl c2) hne
      rw [this] at hins
      exact Except.noConfusion hins
    · have : _tree_insert (PyTree.node l r) sym ba =
          .error (.typeError "object is not subscriptable") :=
        tree_insert_extending_stored sym ba l r s2 c2 hm hpf heq
      rw [this] at hins
      exact Except.noConfusion hins
  · intro hpf
    have : _tree_insert (PyTree.node l r) sym ba =
        .error (.valueError "prefix code ambiguous") :=
      tree_insert_stored_extension sym ba l r s2 c2 hm hpf hne
    rw [this] at hins
    exact Except.noConfusion hins

/-- If the whole fold returned a tree, then every codeword is non-empty,
the entries are mutually prefix-incomparable, and each is incomparable
with everything already stored. -/
theorem mk_tree_from_ok_necessary {α : Type} :
    ∀ (entries : List (α × List Bool)) (l r : PyTree α) (t : PyTree α),
      tidy l = true → tidy r = true →
      _mk_tree_from (PyTree.node l r) entries = .ok t →
      (∀ p ∈ entries, p.2 ≠ []) ∧ PrefFree entries ∧
      (∀ s2 c2 (q : α × List Bool), (s2, c2) ∈ leaves (PyTree.node l r) → q ∈ entries →
        Incomp c2 q.2) := by
  intro entries
  induction entries with
  | nil =>
    intro l r t _ _ _
    refine ⟨(by intro p hp; cases hp), List.Pairwise.nil, ?_⟩
    intro s2 c2 q _ hq
    cases hq
  | cons p rest ih =>
    intro l r t htl htr hfold
    obtain ⟨s, c⟩ := p
    have hfold' : (match _tree_insert (PyTree.node l r) s c with
        | .error e => Except.error e
        | .ok t2 => _mk_tree_from t2 rest) = Except.ok t := hfold
    cases hins : _tree_insert (PyTree.node l r) s c with
    | error e => rw [hins] at hfold'; exact Except.noConfusion hfold'
    | ok t2 =>
      rw [hins] at hfold'
      obtain ⟨hcne, hcompat1⟩ := tree_insert_ok_necessary hins
      obtain ⟨l2, r2, hins2, htidy2, hperm2⟩ :=
        tree_insert_ok s c l r hcne htl htr
          (by intro s2 c2 hm; exact hcompat1 s2 c2 hm)
      have ht2 : t2 = PyTree.node l2 r2 := by
        rw [hins] at hins2
        injection hins2
      subst ht2
      obtain ⟨hrne, hrpf, hrcompat⟩ :=
        ih l2 r2 t (tidy_node_iff.mp htidy2).2.1 (tidy_node_iff.mp htidy2).2.2 hfold'
      refine ⟨?_, ?_, ?_⟩
      · intro q hq
        rcases List.mem_cons.mp hq with rfl | hq2
        · exact hcne
        · exact hrne q hq2
      · refine List.pairwise_cons.mpr ⟨?_, hrpf⟩
        intro q hq
        have hmem : (s, c) ∈ leaves (PyTree.node l2 r2) :=
          hperm2.mem_iff.mpr (List.mem_cons_self _ _)
        exact hrcompat s c q hmem hq
      · intro s2 c2 q hm hq
        rcases List.mem_cons.mp hq with rfl | hq2
        · exact hcompat1 s2 c2 hm
        · have hmem2 : (s2, c2) ∈ leaves (PyTree.node l2 r2) :=
            hperm2.mem_iff.mpr (List.mem_cons_of_mem _ hm)
          exact hrcompat s2 c2 q hmem2 hq2

/-- Characterization of trie construction: `_mk_tree` returns a trie
exactly when every codeword is non-empty and the table is prefix-free. -/
theorem mk_tree_ok_iff {α : Type} (entries : List (α × List Bool)) :
    (∃ t, _mk_tree entries = .ok t) ↔
      ((∀ p ∈ entries, p.2 ≠ []) ∧ PrefFree entries) := by
  constructor
  · rintro ⟨t, ht⟩
    obtain ⟨h1, h2, -⟩ :=
      mk_tree_from_ok_necessary entries PyTree.empty PyTree.empty t rfl rfl ht
    exact ⟨h1, h2⟩
  · rintro ⟨h1, h2⟩
    obtain ⟨l2, r2, hfold, -, -, -⟩ :=
      mk_tree_from_ok entries PyTree.empty PyTree.empty rfl rfl h1 h2
        (by intro s2 c2 q hm; simp [leaves_node, leaves] at hm)
    exact ⟨_, hfold⟩

/-- On a prefix-free table with non-empty codewords, `_mk_tree` builds a
trie whose leaf paths are exactly the table entries; both root children
satisfy the tidiness invariant. -/
theorem mk_tree_success {α : Type} (entries : List (α × List Bool))
    (h1 : ∀ p ∈ entries, p.2 ≠ []) (h2 : PrefFree entries) :
    ∃ l2 r2, _mk_tree entries = .ok (PyTree.node l2 r2) ∧
      tidy l2 = true ∧ tidy r2 = true ∧
      List.Perm (leaves (PyTree.node l2 r2)) entries := by
  obtain ⟨l2, r2, hfold, htl, htr, hperm⟩ :=
    mk_tree_from_ok entries PyTree.empty PyTree.empty rfl rfl h1 h2
      (by intro s2 c2 q hm; simp [leaves_node, leaves] at hm)
  refine ⟨l2, r2, hfold, htl, htr, ?_⟩
  simpa [leaves] using hperm

theorem decodeFrom_cons {α : Type} (root l r : PyTree α) (started : Bool) (b : Bool)
    (bs : List Bool) :
    decodeFrom root (PyTree.node l r) started (b :: bs) =
      match (if b then r else l) with
      | .empty => .error .malformedCode
      | .leaf s => (decodeFrom root root false bs).map (fun out => s :: out)
      | .node l2 r2 => decodeFrom root (.node l2 r2) true bs := rfl

/-- Walking a complete stored codeword from the root emits exactly its
symbol and continues decoding the remaining input from the root. -/
theorem decode_walk {α : Type} (root : PyTree α) :
    ∀ (c : List Bool) (u : PyTree α) (s : α) (started : Bool) (bs : List Bool),
      (s, c) ∈ leaves u → c ≠ [] →
      decodeFrom root u started (c ++ bs) =
        (decodeFrom root root false bs).map (fun out => s :: out) := by
  intro c
  induction c with
  | nil => intro u s started bs _ hne; exact absurd rfl hne
  | cons b d ih =>
    intro u s started bs hm _
    obtain ⟨l2, r2, rfl⟩ := leaves_cons_node hm
    obtain ⟨b0, d0, heq, hm'⟩ := mem_leaves_node_elim hm
    injection heq with hb hd
    subst hb
    subst hd
    cases d with
    | nil =>
      have hchild := leaves_nil_eq_leaf hm'
      simp only [List.cons_append, List.nil_append]
      rw [decodeFrom_cons, hchild]
    | cons e d2 =>
      obtain ⟨l3, r3, hnode⟩ := leaves_cons_node hm'
      rw [hnode] at hm'
      simp only [List.cons_append]
      rw [decodeFrom_cons, hnode]
      exact ih (PyTree.node l3 r3) s true bs hm' (by simp)

theorem dictLookup_mem {α : Type} [DecidableEq α] :
    ∀ (entries : List (α × List Bool)) (s : α) (c : List Bool),
      dictLookup entries s = some c → (s, c) ∈ entries := by
  intro entries
  induction entries with
  | nil => intro s c h; exact Option.noConfusion h
  | cons p rest ih =>
    intro s c h
    obtain ⟨k, v⟩ := p
    by_cases hk : s = k
    · subst hk
      have hv : dictLookup ((s, v) :: rest) s = some v := by simp [dictLookup]
      rw [hv] at h
      injection h with h2
      subst h2
      exact List.mem_cons_self _ _
    · simp only [dictLookup, if_neg hk] at h
      exact List.mem_cons_of_mem _ (ih s c h)

theorem dictLookup_isSome {α : Type} [DecidableEq α] :
    ∀ (entries : List (α × List Bool)) (s : α), s ∈ entries.map Prod.fst →
      ∃ c, dictLookup entries s = some c := by
  intro entries
  induction entries with
  | nil => intro s h; simp at h
  | cons p rest ih =>
    intro s h
    obtain ⟨k, v⟩ := p
    by_cases hk : s = k
    · subst hk
      exact ⟨v, by simp [dictLookup]⟩
    · simp only [List.map_cons, List.mem_cons] at h
      rcases h with h | h
    
      · exact absurd h hk
      · obtain ⟨c, hc⟩ := ih s h
        exact ⟨c, by simp [dictLookup, if_neg hk, hc]⟩

/-- Round trip at the level of the encoding loop and the decoding
traversal: encoding any in-domain symbol stream appends a bit string that
decodes back to exactly that stream. -/
theorem roundtrip_syms {α : Type} [DecidableEq α] (entries : List (α × List Bool))
    (t : PyTree α) (hperm : List.Perm (leaves t) entries)
    (hcne : ∀ p ∈ entries, p.2 ≠ []) :
    ∀ (S : List α) (out : List Bool), (∀ s ∈ S, s ∈ entries.map Prod.fst) →
      ∃ bits, encodeAppend entries S out = (out ++ bits, none) ∧
        decodeFrom t t false bits = .ok S := by
  intro S
  induction S with
  | nil =>
    intro out _
    exact ⟨[], by simp [encodeAppend], rfl⟩
  | cons s S2 ih =>
    intro out hdom
    obtain ⟨c, hlook⟩ := dictLookup_isSome entries s (hdom s (List.mem_cons_self _ _))
    have hmem : (s, c) ∈ entries := dictLookup_mem entries s c hlook
    have hcne0 : c ≠ [] := hcne (s, c) hmem
    have hml : (s, c) ∈ leaves t := hperm.mem_iff.mpr hmem
    obtain ⟨bits, henc, hdec⟩ :=
      ih (out ++ c) (fun x hx => hdom x (List.mem_cons_of_mem _ hx))
    refine ⟨c ++ bits, ?_, ?_⟩
    · show (match dictLookup entries s with
        | none => (out, some PyErr.keyError)
        | some c2 => encodeAppend entries S2 (out ++ c2)) = _
      rw [hlook]
      show encodeAppend entries S2 (out ++ c) = _
      rw [henc, List.append_assoc]
    · rw [decode_walk t c t s false bits hml hcne0, hdec]
      rfl

theorem checkVals_ba_iff {α : Type} (f : Bool) :
    ∀ (entries : List (α × List Bool)),
      checkVals (entries.map (fun p => (p.1, CodeVal.ba p.2 f))) = .ok () ↔
        ∀ p ∈ entries, p.2 ≠ [] := by
  intro entries
  induction entries with
  | nil => simp [checkVals]
  | cons p rest ih =>
    obtain ⟨s, c⟩ := p
    cases c with
    | nil =>
      simp only [List.map_cons, checkVals, List.length_nil, if_pos rfl]
      constructor
      · intro h; exact Except.noConfusion h
      · intro h; exact absurd rfl (h (s, []) (List.mem_cons_self _ _))
    | cons x xs =>
      simp only [List.map_cons, checkVals, List.length_cons]
      rw [if_neg (Nat.succ_ne_zero _)]
      constructor
      · intro h q hq
        rcases List.mem_cons.mp hq with rfl | hq2
        · simp
        · exact (ih.mp h) q hq2
      · intro h
        exact ih.mpr (fun q hq => h q (List.mem_cons_of_mem _ hq))

theorem check_plainTable_ok_iff {α : Type} (entries : List (α × List Bool)) :
    _check_codedict (plainTable entries) = .ok () ↔
      (entries ≠ [] ∧ ∀ p ∈ entries, p.2 ≠ []) := by
  show (if (entries.map (fun p => (p.1, CodeVal.ba p.2 false))).length = 0
    then Except.error (PyErr.valueError "prefix code empty")
    else checkVals (entries.map (fun p => (p.1, CodeVal.ba p.2 false)))) = .ok () ↔ _
  rw [List.length_map]
  cases entries with
  | nil => simp
  | cons p rest =>
    rw [if_neg (by simp)]
    rw [checkVals_ba_iff]
    simp

theorem argEntries_plainTable {α : Type} (entries : List (α × List Bool)) :
    argEntries (plainTable entries) = entries := by
  simp [argEntries, plainTable, codeBits, List.map_map, Function.comp_def, Prod.mk.eta]

theorem argEntries_frozenTable {α : Type} (entries : List (α × List Bool)) :
    argEntries (frozenTable entries) = entries := by
  simp [argEntries, frozenTable, codeBits, List.map_map, Function.comp_def, Prod.mk.eta]

/-! The two bit-sequence classes.  Read access and construction live in the
native engine; only what the claims need is modelled: the bit content (and
for reads, its observation).  The `bitarray` class adds the codec methods
and the raising `__hash__`; `frozenbitarray` re-declares every mutator to
raise `NotImplementedError`. -/

/-- A mutable `bitarray` object: its bit content in index order. -/
structure Bitarray where
  bits : List Bool
  deriving DecidableEq

/-- An immutable `frozenbitarray` object: its bit content in index order. -/
structure Frozenbitarray where
  bits : List Bool
  deriving DecidableEq

/-- Translation of `bitarray.__hash__`: always raises
`TypeError("unhashable type: 'bitarray.bitarray'")`. -/
def bitarray_hash (_ : Bitarray) : Except PyErr Int :=
  .error (.typeError "unhashable type: 'bitarray.bitarray'")

/-- Modelled from the spec: the immutable variant supports stable hashing
consistent with equality (spec section 6), i.e. the hash is a pure
function of the object's bit content (and hence of its length). -/
def frozenbitarray_hash (fb : Frozenbitarray) : Int :=
  fb.bits.foldl (fun h b => 2 * h + (if b then 1 else 0)) 1

/-- Modelled from the spec: the native engine's bitwise-NOT operator `~a`
(spec section 1, "bitwise boolean operators"), a non-mutating read
operation returning a new bit sequence with every bit complemented. -/
def bitarray_invert_op (a : Bitarray) : Bitarray :=
  ⟨a.bits.map (fun b => !b)⟩

/-- Modelled from the spec: a representative read operation (reported
length) shared by both classes through inheritance from the native
engine. -/
def engine_length (bits : List Bool) : Nat := bits.length

/-- The mutable class does not override `length()`: it reports the engine
value. -/
def bitarray_length (a : Bitarray) : Nat := engine_length a.bits

/-- The immutable class does not override `length()` either: it reports
the same engine value. -/
def frozenbitarray_length (fb : Frozenbitarray) : Nat := engine_length fb.bits

/-- Python exception semantics for an in-place method: if the call raises,
the receiver keeps its previous state. -/
def applyMutation (fb : Frozenbitarray) (r : Except PyErr Frozenbitarray) : Frozenbitarray :=
  match r with
  | .ok fb2 => fb2
  | .error _ => fb

/-! The mutator overrides of `frozenbitarray` (source lines 137-204): each
one only raises `NotImplementedError`; broad Python argument types (index
or slice, bytes, file objects) are modelled by a type parameter. -/

/-- Translation of `frozenbitarray.append`. -/
def frozenbitarray_append (_ : Frozenbitarray) (_ : Bool) : Except PyErr Frozenbitarray :=
  .error .notImplementedError

/-- Translation of `frozenbitarray.bytereverse`. -/
def frozenbitarray_bytereverse (_ : Frozenbitarray) : Except PyErr Frozenbitarray :=
  .error .notImplementedError

/-- Translation of `frozenbitarray.extend`. -/
def frozenbitarray_extend {β : Type} (_ : Frozenbitarray) (_ : β) :
    Except PyErr Frozenbitarray :=
  .error .notImplementedError

/-- Translation of `frozenbitarray._encode` (the in-place encoding engine
entry point, which extends the receiver). -/
def frozenbitarray_encode_native (_ : Frozenbitarray) : Except PyErr Frozenbitarray :=
  .error .notImplementedError

/-- Translation of `frozenbitarray.fill`. -/
def frozenbitarray_fill (_ : Frozenbitarray) : Except PyErr Frozenbitarray :=
  .error .notImplementedError

/-- Translation of `frozenbitarray.fromfile`. -/
def frozenbitarray_fromfile {β : Type} (_ : Frozenbitarray) (_ : β) (_ : Nat) :
    Except PyErr Frozenbitarray :=
  .error .notImplementedError

/-- Translation of `frozenbitarray.frombytes`. -/
def frozenbitarray_frombytes {β : Type} (_ : Frozenbitarray) (_ : β) :
    Except PyErr Frozenbitarray :=
  .error .notImplementedError

/-- Translation of `frozenbitarray.insert`. -/
def frozenbitarray_insert (_ : Frozenbitarray) (_ : Int) (_ : Bool) :
    Except PyErr Frozenbitarray :=
  .error .notImplementedError

/-- Translation of `frozenbitarray.invert` (the in-place inversion). -/
def frozenbitarray_invert (_ : Frozenbitarray) : Except PyErr Frozenbitarray :=
  .error .notImplementedError

/-- Translation of `frozenbitarray.pack`. -/
def frozenbitarray_pack {β : Type} (_ : Frozenbitarray) (_ : β) :
    Except PyErr Frozenbitarray :=
  .error .notImplementedError

/-- Translation of `frozenbitarray.pop`. -/
def frozenbitarray_pop (_ : Frozenbitarray) (_ : Int) : Except PyErr Frozenbitarray :=
  .error .notImplementedError

/-- Translation of `frozenbitarray.remove`. -/
def frozenbitarray_remove (_ : Frozenbitarray) (_ : Bool) : Except PyErr Frozenbitarray :=
  .error .notImplementedError

/-- Translation of `frozenbitarray.reverse`. -/
def frozenbitarray_reverse (_ : Frozenbitarray) : Except PyErr Frozenbitarray :=
  .error .notImplementedError

/-- Translation of `frozenbitarray.setall`. -/
def frozenbitarray_setall (_ : Frozenbitarray) (_ : Bool) : Except PyErr Frozenbitarray :=
  .error .notImplementedError

/-- Translation of `frozenbitarray.sort`. -/
def frozenbitarray_sort (_ : Frozenbitarray) (_ : Bool) : Except PyErr Frozenbitarray :=
  .error .notImplementedError

/-- Translation of `frozenbitarray.__delitem__` (index or slice
deletion). -/
def frozenbitarray_delitem {β : Type} (_ : Frozenbitarray) (_ : β) :
    Except PyErr Frozenbitarray :=
  .error .notImplementedError

/-- Translation of `frozenbitarray.__setitem__` (index or slice
assignment). -/
def frozenbitarray_setitem {β : Type} (_ : Frozenbitarray) (_ : β) :
    Except PyErr Frozenbitarray :=
  .error .notImplementedError

/-- Translation of `frozenbitarray.__iadd__` (`+=`). -/
def frozenbitarray_iadd {β : Type} (_ : Frozenbitarray) (_ : β) :
    Except PyErr Frozenbitarray :=
  .error .notImplementedError

/-- Translation of `frozenbitarray.__imul__` (`*=`). -/
def frozenbitarray_imul (_ : Frozenbitarray) (_ : Nat) : Except PyErr Frozenbitarray :=
  .error .notImplementedError

/-- Translation of `frozenbitarray.__iand__` (`&=`). -/
def frozenbitarray_iand (_ _ : Frozenbitarray) : Except PyErr Frozenbitarray :=
  .error .notImplementedError

/-- Translation of `frozenbitarray.__ior__` (`|=`). -/
def frozenbitarray_ior (_ _ : Frozenbitarray) : Except PyErr Frozenbitarray :=
  .error .notImplementedError

/-- Translation of `frozenbitarray.__ixor__` (`^=`). -/
def frozenbitarray_ixor (_ _ : Frozenbitarray) : Except PyErr Frozenbitarray :=
  .error .notImplementedError

/-- Translation of `frozenbitarray.__invert__` (`~a`, which on the base
class is the non-mutating bitwise NOT returning a new array). -/
def frozenbitarray_invert_op (_ : Frozenbitarray) : Except PyErr Frozenbitarray :=
  .error .notImplementedError

/-- Every non-`empty` slot of a tidy trie lies on the path of some leaf. -/
theorem nodeAt_nonempty_covered {α : Type} :
    ∀ (p : List Bool) (t u : PyTree α), tidy t = true → nodeAt t p = some u →
      u ≠ PyTree.empty → ∃ s q, (s, q) ∈ leaves t ∧ IsPref p q := by
  intro p
  induction p with
  | nil =>
    intro t u htidy hat hne
    simp only [nodeAt, Option.some_inj] at hat
    subst hat
    cases t with
    | empty => exact absurd rfl hne
    | leaf s => exact ⟨s, [], mem_leaves_leaf.mpr ⟨rfl, rfl⟩, isPref_nil_left _⟩
    | node l r =>
      have hhl : hasLeaf (PyTree.node l r) = true := by
        rw [hasLeaf_node]
        exact (tidy_node_iff.mp htidy).1
      obtain ⟨s, q, hm⟩ := (hasLeaf_iff _).mp hhl
      exact ⟨s, q, hm, isPref_nil_left _⟩
  | cons b p2 ih =>
    intro t u htidy hat hne
    cases t with
    | empty => simp [nodeAt] at hat
    | leaf s => simp [nodeAt] at hat
    | node l r =>
      simp only [nodeAt] at hat
      have hct : tidy (if b then r else l) = true := by
        obtain ⟨-, htl, htr⟩ := tidy_node_iff.mp htidy
        cases b <;> simpa
      obtain ⟨s, q, hm, hpref⟩ := ih (if b then r else l) u hct hat hne
      exact ⟨s, b :: q, mem_leaves_node_intro b hm, isPref_cons.mpr ⟨rfl, hpref⟩⟩

/-! The claim theorems. -/

/-- C1: for every code table that passes validation and whose codewords are
mutually prefix-free, and for every finite symbol sequence drawn from the
table's domain, encoding the sequence with the table and then decoding the
resulting bit sequence with the same table returns exactly the original
sequence. -/
theorem claim_c1_roundtrip {α : Type} [DecidableEq α] (entries : List (α × List Bool))
    (S : List α)
    (hval : _check_codedict (plainTable entries) = .ok ())
    (hpf : PrefFree entries)
    (hdom : ∀ s ∈ S, s ∈ entries.map Prod.fst) :
    ∃ out : List Bool,
      bitarray_encode (plainTable entries) [] S = (out, none) ∧
      bitarray_decode (plainTable entries) out = .ok S := by
  obtain ⟨hne, hcne⟩ := (check_plainTable_ok_iff entries).mp hval
  obtain ⟨l2, r2, hmk, htl, htr, hperm⟩ := mk_tree_success entries hcne hpf
  obtain ⟨bits, henc, hdec⟩ :=
    roundtrip_syms entries (PyTree.node l2 r2) hperm hcne S [] hdom
  refine ⟨bits, ?_, ?_⟩
  · show (match _check_codedict (plainTable entries) with
      | .error e => ([], some e)
      | .ok _ => encodeAppend (argEntries (plainTable entries)) S []) = _
    rw [hval, argEntries_plainTable]
    show encodeAppend entries S [] = _
    rw [henc]
    rfl
  · show (match _check_codedict (plainTable entries) with
      | .error e => Except.error e
      | .ok _ => match _mk_tree (argEntries (plainTable entries)) with
        | .error e => .error e
        | .ok t => decodeFrom t t false bits) = _
    rw [hval, argEntries_plainTable]
    show (match _mk_tree entries with
      | .error e => Except.error e
      | .ok t => decodeFrom t t false bits) = _
    rw [hmk]
    exact hdec

/-- Witness for C1 at the table of the spec's first concrete scenario
(`{a: "0", b: "10", c: "11"}` with symbols 0, 1, 2) and the stream
`[a, b, c, a]`. -/
theorem claim_c1_roundtrip_witness :
    (_check_codedict (plainTable
        [((0 : Nat), [false]), (1, [true, false]), (2, [true, true])]) = .ok ()
      ∧ PrefFree [((0 : Nat), [false]), (1, [true, false]), (2, [true, true])]
      ∧ ∀ s ∈ [0, 1, 2, 0],
          s ∈ ([((0 : Nat), [false]), (1, [true, false]), (2, [true, true])].map Prod.fst))
    ∧ ∃ out : List Bool,
        bitarray_encode (plainTable
          [((0 : Nat), [false]), (1, [true, false]), (2, [true, true])]) [] [0, 1, 2, 0] =
          (out, none) ∧
        bitarray_decode (plainTable
          [((0 : Nat), [false]), (1, [true, false]), (2, [true, true])]) out =
          .ok [0, 1, 2, 0] := by
  refine ⟨⟨rfl, by decide, by decide⟩, ?_⟩
  exact claim_c1_roundtrip _ _ rfl (by decide) (by decide)

/-- C2: trie construction does abort in every insertion order once one
codeword is a strict prefix of another, but the error kind depends on the
order: inserting the longer codeword after the shorter one walks into the
already-stored bare leaf symbol and raises a type-kind subscript error,
not the ambiguous-prefix value-kind error; the ambiguous-prefix
`ValueError` is raised only in the opposite order.  Evaluated on the table
`{1: "0", 2: "01"}` in both iteration orders. -/
theorem claim_c2_prefix_error_kind :
    _mk_tree [((1 : Nat), [false]), (2, [false, true])] =
        .error (.typeError "object is not subscriptable")
      ∧ _mk_tree [((2 : Nat), [false, true]), (1, [false])] =
        .error (.valueError "prefix code ambiguous") := ⟨rfl, rfl⟩

/-- C3: reordering the entries of a code table never changes whether trie
construction accepts (returns a trie) or rejects (raises): acceptance is
equivalent to all codewords being non-empty and mutually prefix-free,
which is invariant under permutation. -/
theorem claim_c3_order_independent {α : Type} (e1 e2 : List (α × List Bool))
    (hperm : List.Perm e1 e2) :
    (∃ t, _mk_tree e1 = .ok t) ↔ (∃ t, _mk_tree e2 = .ok t) := by
  rw [mk_tree_ok_iff, mk_tree_ok_iff]
  constructor
  · rintro ⟨h1, h2⟩
    exact ⟨fun p hp => h1 p (hperm.mem_iff.mpr hp),
      (hperm.pairwise_iff (fun h => incomp_symm h)).mp h2⟩
  · rintro ⟨h1, h2⟩
    exact ⟨fun p hp => h1 p (hperm.mem_iff.mp hp),
      (hperm.pairwise_iff (fun h => incomp_symm h)).mpr h2⟩

/-- Witness for C3: swapping the two entries of a valid two-symbol table
preserves acceptance. -/
theorem claim_c3_order_independent_witness :
    List.Perm [((0 : Nat), [false]), (1, [true])] [((1 : Nat), [true]), (0, [false])]
    ∧ ((∃ t, _mk_tree [((0 : Nat), [false]), (1, [true])] = .ok t) ↔
        (∃ t, _mk_tree [((1 : Nat), [true]), (0, [false])] = .ok t)) :=
  ⟨List.Perm.swap _ _ _,
    claim_c3_order_independent _ _ (List.Perm.swap _ _ _)⟩

/-- A structurally acceptable table value: a bit sequence of length at
least one (of either class). -/
def ValidVal : CodeVal → Prop
  | .ba bits _ => bits ≠ []
  | .other => False

instance (v : CodeVal) : Decidable (ValidVal v) :=
  match v with
  | .ba bits _ => decidable_of_iff (bits ≠ []) Iff.rfl
  | .other => isFalse (fun h => h)

theorem checkVals_skip_valid {α : Type} :
    ∀ (pre : List (α × CodeVal)), (∀ q ∈ pre, ValidVal q.2) →
      ∀ (tail : List (α × CodeVal)), checkVals (pre ++ tail) = checkVals tail := by
  intro pre
  induction pre with
  | nil => intro _ tail; rfl
  | cons p pre2 ih =>
    intro hv tail
    obtain ⟨k0, v0⟩ := p
    have hv0 : ValidVal v0 := hv (k0, v0) (List.mem_cons_self _ _)
    cases v0 with
    | other => exact absurd hv0 (fun h => h)
    | ba bits f =>
      cases bits with
      | nil => exact absurd rfl hv0
      | cons x xs =>
        show (if (x :: xs).length = 0 then Except.error (.valueError "non-empty bitarray expected")
          else checkVals (pre2 ++ tail)) = _
        rw [if_neg (by simp)]
        exact ih (fun q hq => hv q (List.mem_cons_of_mem _ hq)) tail

/-- C4: the table validator raises a type-kind error on a non-mapping, a
value-kind error on an empty mapping, a type-kind error on the first
entry whose value is not a bit sequence, and a value-kind error on the
first entry whose codeword is empty; it accepts every structurally valid
table, and whenever it raises, `decode`, `iterdecode` and `encode` all
surface exactly that error without any trie construction taking place. -/
theorem claim_c4_validation {α : Type} [DecidableEq α] :
    (_check_codedict (TableArg.nonDict : TableArg α) =
        .error (.typeError "dictionary expected"))
    ∧ (_check_codedict (TableArg.dict ([] : List (α × CodeVal))) =
        .error (.valueError "prefix code empty"))
    ∧ (∀ (pre : List (α × CodeVal)) (k : α) (rest : List (α × CodeVal)),
        (∀ q ∈ pre, ValidVal q.2) →
        _check_codedict (TableArg.dict (pre ++ (k, CodeVal.other) :: rest)) =
          .error (.typeError "bitarray expected for dictionary value"))
    ∧ (∀ (pre : List (α × CodeVal)) (k : α) (f : Bool) (rest : List (α × CodeVal)),
        (∀ q ∈ pre, ValidVal q.2) →
        _check_codedict (TableArg.dict (pre ++ (k, CodeVal.ba [] f) :: rest)) =
          .error (.valueError "non-empty bitarray expected"))
    ∧ (∀ (entries : List (α × CodeVal)), entries ≠ [] → (∀ q ∈ entries, ValidVal q.2) →
        _check_codedict (TableArg.dict entries) = .ok ())
    ∧ (∀ (tbl : TableArg α) (self : List Bool) (syms : List α) (e : PyErr),
        _check_codedict tbl = .error e →
        bitarray_decode tbl self = .error e ∧
        bitarray_iterdecode tbl self = .error e ∧
        bitarray_encode tbl self syms = (self, some e)) := by
  refine ⟨rfl, rfl, ?_, ?_, ?_, ?_⟩
  · intro pre k rest hv
    show (if (pre ++ (k, CodeVal.other) :: rest).length = 0
      then Except.error (.valueError "prefix code empty")
      else checkVals (pre ++ (k, CodeVal.other) :: rest)) = _
    rw [if_neg (by simp), checkVals_skip_valid pre hv]
    rfl
  · intro pre k f rest hv
    show (if (pre ++ (k, CodeVal.ba [] f) :: rest).length = 0
      then Except.error (.valueError "prefix code empty")
      else checkVals (pre ++ (k, CodeVal.ba [] f) :: rest)) = _
    rw [if_neg (by simp), checkVals_skip_valid pre hv]
    rfl
  · intro entries hne hv
    show (if entries.length = 0 then Except.error (.valueError "prefix code empty")
      else checkVals entries) = _
    rw [if_neg (by simpa using hne)]
    have := checkVals_skip_valid entries hv []
    rw [List.append_nil] at this
    rw [this]
    rfl
  · intro tbl self syms e hchk
    refine ⟨?_, ?_, ?_⟩
    · show (match _check_codedict tbl with
        | .error e2 => Except.error e2
        | .ok _ => match _mk_tree (argEntries tbl) with
          | .error e2 => .error e2
          | .ok t => decodeFrom t t false self) = _
      rw [hchk]
    · show (match _check_codedict tbl with
        | .error e2 => Except.error e2
        | .ok _ => match _mk_tree (argEntries tbl) with
          | .error e2 => .error e2
          | .ok t => .ok (t, self)) = _
      rw [hchk]
    · show (match _check_codedict tbl with
        | .error e2 => (self, some e2)
        | .ok _ => encodeAppend (argEntries tbl) syms self) = _
      rw [hchk]

/-- Witness for C4: the four rejection kinds and the acceptance case at
concrete one-entry tables, plus the surfacing of the non-mapping error
through `decode`. -/
theorem claim_c4_validation_witness :
    _check_codedict (TableArg.dict [((0 : Nat), CodeVal.other)]) =
        .error (.typeError "bitarray expected for dictionary value")
    ∧ _check_codedict (TableArg.dict [((0 : Nat), CodeVal.ba [] false)]) =
        .error (.valueError "non-empty bitarray expected")
    ∧ _check_codedict (TableArg.dict [((0 : Nat), CodeVal.ba [true] true)]) = .ok ()
    ∧ bitarray_decode (TableArg.nonDict : TableArg Nat) [true] =
        .error (.typeError "dictionary expected") := by
  refine ⟨?_, ?_, ?_, ?_⟩
  · exact (claim_c4_validation (α := Nat)).2.2.1 [] 0 [] (by decide)
  · exact (claim_c4_validation (α := Nat)).2.2.2.1 [] 0 false [] (by decide)
  · exact (claim_c4_validation (α := Nat)).2.2.2.2.1 [(0, CodeVal.ba [true] true)]
      (by decide) (by decide)
  · exact ((claim_c4_validation (α := Nat)).2.2.2.2.2 TableArg.nonDict [true] [] _ rfl).1

/-- C5: on a validated prefix-free table, trie construction succeeds, every
entry's codeword path ends at a leaf holding exactly that entry's symbol,
and every non-empty slot of the trie lies on some entry's codeword path. -/
theorem claim_c5_trie_shape {α : Type} (entries : List (α × List Bool))
    (hne : entries ≠ []) (hcne : ∀ p ∈ entries, p.2 ≠ []) (hpf : PrefFree entries) :
    ∃ t, _mk_tree entries = .ok t ∧
      (∀ p ∈ entries, nodeAt t p.2 = some (PyTree.leaf p.1)) ∧
      (∀ (bs : List Bool) (u : PyTree α), nodeAt t bs = some u → u ≠ PyTree.empty →
        ∃ q ∈ entries, IsPref bs q.2) := by
  obtain ⟨l2, r2, hmk, htl, htr, hperm⟩ := mk_tree_success entries hcne hpf
  have htidy : tidy (PyTree.node l2 r2) = true := by
    refine tidy_node_iff.mpr ⟨?_, htl, htr⟩
    rw [← hasLeaf_node]
    refine (hasLeaf_iff _).mpr ?_
    cases entries with
    | nil => exact absurd rfl hne
    | cons p rest =>
      exact ⟨p.1, p.2, hperm.mem_iff.mpr (by simp)⟩
  refine ⟨PyTree.node l2 r2, hmk, ?_, ?_⟩
  · intro p hp
    exact mem_leaves_nodeAt _ (hperm.mem_iff.mpr (by simpa using hp))
  · intro bs u hat hne2
    obtain ⟨s, q, hm, hpref⟩ := nodeAt_nonempty_covered bs _ u htidy hat hne2
    exact ⟨(s, q), hperm.mem_iff.mp hm, hpref⟩

/-- Witness for C5 at the spec's first concrete scenario table. -/
theorem claim_c5_trie_shape_witness :
    ([((0 : Nat), [false]), (1, [true, false]), (2, [true, true])] ≠
        ([] : List (Nat × List Bool))
      ∧ (∀ p ∈ [((0 : Nat), [false]), (1, [true, false]), (2, [true, true])],
          p.2 ≠ ([] : List Bool))
      ∧ PrefFree [((0 : Nat), [false]), (1, [true, false]), (2, [true, true])])
    ∧ ∃ t, _mk_tree [((0 : Nat), [false]), (1, [true, false]), (2, [true, true])] = .ok t ∧
      (∀ p ∈ [((0 : Nat), [false]), (1, [true, false]), (2, [true, true])],
        nodeAt t p.2 = some (PyTree.leaf p.1)) ∧
      (∀ (bs : List Bool) (u : PyTree Nat), nodeAt t bs = some u → u ≠ PyTree.empty →
        ∃ q ∈ [((0 : Nat), [false]), (1, [true, false]), (2, [true, true])],
          IsPref bs q.2) := by
  refine ⟨⟨by decide, by decide, by decide⟩, ?_⟩
  exact claim_c5_trie_shape _ (by decide) (by decide) (by decide)

/-- C6: every mutator declared on the immutable variant fails with
`NotImplementedError`, and — the method body raising before touching any
state — the receiver's bit content (hence its length) is unchanged after
the failed call. -/
theorem claim_c6_frozen_mutators_fail :
    (∀ (fb : Frozenbitarray) (b : Bool),
      frozenbitarray_append fb b = .error .notImplementedError ∧
      applyMutation fb (frozenbitarray_append fb b) = fb)
    ∧ (∀ fb : Frozenbitarray,
      frozenbitarray_bytereverse fb = .error .notImplementedError ∧
      applyMutation fb (frozenbitarray_bytereverse fb) = fb)
    ∧ (∀ (β : Type) (fb : Frozenbitarray) (x : β),
      frozenbitarray_extend fb x = .error .notImplementedError ∧
      applyMutation fb (frozenbitarray_extend fb x) = fb)
    ∧ (∀ fb : Frozenbitarray,
      frozenbitarray_encode_native fb = .error .notImplementedError ∧
      applyMutation fb (frozenbitarray_encode_native fb) = fb)
    ∧ (∀ fb : Frozenbitarray,
      frozenbitarray_fill fb = .error .notImplementedError ∧
      applyMutation fb (frozenbitarray_fill fb) = fb)
    ∧ (∀ (β : Type) (fb : Frozenbitarray) (x : β) (n : Nat),
      frozenbitarray_fromfile fb x n = .error .notImplementedError ∧
      applyMutation fb (frozenbitarray_fromfile fb x n) = fb)
    ∧ (∀ (β : Type) (fb : Frozenbitarray) (x : β),
      frozenbitarray_frombytes fb x = .error .notImplementedError ∧
      applyMutation fb (frozenbitarray_frombytes fb x) = fb)
    ∧ (∀ (fb : Frozenbitarray) (i : Int) (b : Bool),
      frozenbitarray_insert fb i b = .error .notImplementedError ∧
      applyMutation fb (frozenbitarray_insert fb i b) = fb)
    ∧ (∀ fb : Frozenbitarray,
      frozenbitarray_invert fb = .error .notImplementedError ∧
      applyMutation fb (frozenbitarray_invert fb) = fb)
    ∧ (∀ (β : Type) (fb : Frozenbitarray) (x : β),
      frozenbitarray_pack fb x = .error .notImplementedError ∧
      applyMutation fb (frozenbitarray_pack fb x) = fb)
    ∧ (∀ (fb : Frozenbitarray) (i : Int),
      frozenbitarray_pop fb i = .error .notImplementedError ∧
      applyMutation fb (frozenbitarray_pop fb i) = fb)
    ∧ (∀ (fb : Frozenbitarray) (b : Bool),
      frozenbitarray_remove fb b = .error .notImplementedError ∧
      applyMutation fb (frozenbitarray_remove fb b) = fb)
    ∧ (∀ fb : Frozenbitarray,
      frozenbitarray_reverse fb = .error .notImplementedError ∧
      applyMutation fb (frozenbitarray_reverse fb) = fb)
    ∧ (∀ (fb : Frozenbitarray) (b : Bool),
      frozenbitarray_setall fb b = .error .notImplementedError ∧
      applyMutation fb (frozenbitarray_setall fb b) = fb)
    ∧ (∀ (fb : Frozenbitarray) (b : Bool),
      frozenbitarray_sort fb b = .error .notImplementedError ∧
      applyMutation fb (frozenbitarray_sort fb b) = fb)
    ∧ (∀ (β : Type) (fb : Frozenbitarray) (x : β),
      frozenbitarray_delitem fb x = .error .notImplementedError ∧
      applyMutation fb (frozenbitarray_delitem fb x) = fb)
    ∧ (∀ (β : Type) (fb : Frozenbitarray) (x : β),
      frozenbitarray_setitem fb x = .error .notImplementedError ∧
      applyMutation fb (frozenbitarray_setitem fb x) = fb)
    ∧ (∀ (β : Type) (fb : Frozenbitarray) (x : β),
      frozenbitarray_iadd fb x = .error .notImplementedError ∧
      applyMutation fb (frozenbitarray_iadd fb x) = fb)
    ∧ (∀ (fb : Frozenbitarray) (n : Nat),
      frozenbitarray_imul fb n = .error .notImplementedError ∧
      applyMutation fb (frozenbitarray_imul fb n) = fb)
    ∧ (∀ fb other : Frozenbitarray,
      frozenbitarray_iand fb other = .error .notImplementedError ∧
      applyMutation fb (frozenbitarray_iand fb other) = fb)
    ∧ (∀ fb other : Frozenbitarray,
      frozenbitarray_ior fb other = .error .notImplementedError ∧
      applyMutation fb (frozenbitarray_ior fb other) = fb)
    ∧ (∀ fb other : Frozenbitarray,
      frozenbitarray_ixor fb other = .error .notImplementedError ∧
      applyMutation fb (frozenbitarray_ixor fb other) = fb)
    ∧ (∀ fb : Frozenbitarray,
      frozenbitarray_invert_op fb = .error .notImplementedError ∧
      applyMutation fb (frozenbitarray_invert_op fb) = fb) :=
  ⟨fun _ _ => ⟨rfl, rfl⟩, fun _ => ⟨rfl, rfl⟩, fun _ _ _ => ⟨rfl, rfl⟩,
    fun _ => ⟨rfl, rfl⟩, fun _ => ⟨rfl, rfl⟩, fun _ _ _ _ => ⟨rfl, rfl⟩,
    fun _ _ _ => ⟨rfl, rfl⟩, fun _ _ _ => ⟨rfl, rfl⟩, fun _ => ⟨rfl, rfl⟩,
    fun _ _ _ => ⟨rfl, rfl⟩, fun _ _ => ⟨rfl, rfl⟩, fun _ _ => ⟨rfl, rfl⟩,
    fun _ => ⟨rfl, rfl⟩, fun _ _ => ⟨rfl, rfl⟩, fun _ _ => ⟨rfl, rfl⟩,
    fun _ _ _ => ⟨rfl, rfl⟩, fun _ _ _ => ⟨rfl, rfl⟩, fun _ _ _ => ⟨rfl, rfl⟩,
    fun _ _ => ⟨rfl, rfl⟩, fun _ _ => ⟨rfl, rfl⟩, fun _ _ => ⟨rfl, rfl⟩,
    fun _ _ => ⟨rfl, rfl⟩, fun _ => ⟨rfl, rfl⟩⟩

/-- C7: the code rejects the bitwise-NOT operator `~` on the immutable
variant even though it is a non-mutating read operation (on the base
engine it returns a new, complemented array and leaves the receiver
untouched), contradicting both the claim and the source's own comment
that only methods that "may mutate the object" are made unavailable.
Evaluated at the concrete input `frozenbitarray('101')`. -/
theorem claim_c7_invert_read_rejected :
    frozenbitarray_invert_op ⟨[true, false, true]⟩ = .error .notImplementedError
    ∧ bitarray_invert_op ⟨[true, false, true]⟩ = ⟨[false, true, false]⟩
    ∧ frozenbitarray_length ⟨[true, false, true]⟩ = bitarray_length ⟨[true, false, true]⟩ :=
  ⟨rfl, rfl, rfl⟩

/-- C8: hashing a mutable instance always raises
`TypeError("unhashable type: 'bitarray.bitarray'")`, and the immutable
variant's hash is a pure function of the bit content, so two frozen
instances with identical bit content (hence identical length) hash
equally. -/
theorem claim_c8_hashing :
    (∀ a : Bitarray, bitarray_hash a =
      .error (.typeError "unhashable type: 'bitarray.bitarray'"))
    ∧ (∀ f1 f2 : Frozenbitarray, f1.bits = f2.bits →
        frozenbitarray_hash f1 = frozenbitarray_hash f2) := by
  refine ⟨fun a => rfl, fun f1 f2 h => ?_⟩
  unfold frozenbitarray_hash
  rw [h]

/-- Witness for C8 at two frozen instances holding the bits `11`. -/
theorem claim_c8_hashing_witness :
    (Frozenbitarray.mk [true, true]).bits = (Frozenbitarray.mk [true, true]).bits
    ∧ frozenbitarray_hash ⟨[true, true]⟩ = frozenbitarray_hash ⟨[true, true]⟩
    ∧ bitarray_hash ⟨[true, true]⟩ =
        .error (.typeError "unhashable type: 'bitarray.bitarray'") :=
  ⟨rfl, claim_c8_hashing.2 ⟨[true, true]⟩ ⟨[true, true]⟩ rfl,
    claim_c8_hashing.1 ⟨[true, true]⟩⟩

theorem encodeAppend_st_table {α : Type} [DecidableEq α] :
    ∀ (syms : List α) (out : List Bool) (tbl : TableArg α),
      (encodeAppend_st syms out tbl).2 = tbl := by
  intro syms
  induction syms with
  | nil => intro out tbl; rfl
  | cons s rest ih =>
    intro out tbl
    show (match dictLookup (argEntries tbl) s with
      | none => ((out, some PyErr.keyError), tbl)
      | some c => encodeAppend_st rest (out ++ c) tbl).2 = tbl
    cases dictLookup (argEntries tbl) s with
    | none => rfl
    | some c => exact ih (out ++ c) tbl

/-- C9: threading the code table through every stage of each codec
operation (validation, trie construction, decoding, lazy decoding,
encoding) hands back exactly the table that was passed in, whether the
call succeeds or raises: no codec operation writes into the table or its
codewords (the only in-place mutation in the core, `tree[v] = ...`,
targets the freshly allocated tree). -/
theorem claim_c9_table_not_mutated {α : Type} [DecidableEq α] :
    (∀ tbl : TableArg α, (check_codedict_st tbl).2 = tbl)
    ∧ (∀ tbl : TableArg α, (mk_tree_st tbl).2 = tbl)
    ∧ (∀ (tbl : TableArg α) (self : List Bool), (bitarray_decode_st tbl self).2 = tbl)
    ∧ (∀ (tbl : TableArg α) (self : List Bool), (bitarray_iterdecode_st tbl self).2 = tbl)
    ∧ (∀ (tbl : TableArg α) (self : List Bool) (syms : List α),
        (bitarray_encode_st tbl self syms).2 = tbl) := by
  refine ⟨fun tbl => rfl, fun tbl => rfl, ?_, ?_, ?_⟩
  · intro tbl self
    unfold bitarray_decode_st check_codedict_st mk_tree_st
    cases _check_codedict tbl with
    | error e => rfl
    | ok u =>
      show (match (_mk_tree (argEntries tbl), tbl) with
        | (Except.error e, tbl2) => (Except.error e, tbl2)
        | (Except.ok t, tbl2) => (decodeFrom t t false self, tbl2)).2 = tbl
      cases _mk_tree (argEntries tbl) with
      | error e => rfl
      | ok t => rfl
  · intro tbl self
    unfold bitarray_iterdecode_st check_codedict_st mk_tree_st
    cases _check_codedict tbl with
    | error e => rfl
    | ok u =>
      show (match (_mk_tree (argEntries tbl), tbl) with
        | (Except.error e, tbl2) => (Except.error e, tbl2)
        | (Except.ok t, tbl2) => (Except.ok (t, self), tbl2)).2 = tbl
      cases _mk_tree (argEntries tbl) with
      | error e => rfl
      | ok t => rfl
  · intro tbl self syms
    unfold bitarray_encode_st check_codedict_st
    cases _check_codedict tbl with
    | error e => rfl
    | ok u =>
      show (encodeAppend_st syms self tbl).2 = tbl
      exact encodeAppend_st_table syms self tbl

theorem checkVals_flag_independent {α : Type} (f g : Bool) :
    ∀ (entries : List (α × List Bool)),
      checkVals (entries.map (fun p => (p.1, CodeVal.ba p.2 f))) =
        checkVals (entries.map (fun p => (p.1, CodeVal.ba p.2 g))) := by
  intro entries
  induction entries with
  | nil => rfl
  | cons p rest ih =>
    show (if p.2.length = 0 then Except.error (.valueError "non-empty bitarray expected")
      else checkVals (rest.map (fun q => (q.1, CodeVal.ba q.2 f)))) =
      (if p.2.length = 0 then Except.error (.valueError "non-empty bitarray expected")
      else checkVals (rest.map (fun q => (q.1, CodeVal.ba q.2 g))))
    rw [ih]

theorem check_frozenTable_eq_plain {α : Type} (entries : List (α × List Bool)) :
    _check_codedict (frozenTable entries) = _check_codedict (plainTable entries) := by
  show (if (entries.map (fun p => (p.1, CodeVal.ba p.2 true))).length = 0
      then Except.error (.valueError "prefix code empty")
      else checkVals (entries.map (fun p => (p.1, CodeVal.ba p.2 true)))) =
    (if (entries.map (fun p => (p.1, CodeVal.ba p.2 false))).length = 0
      then Except.error (.valueError "prefix code empty")
      else checkVals (entries.map (fun p => (p.1, CodeVal.ba p.2 false))))
  rw [List.length_map, List.length_map, checkVals_flag_independent true false]

/-- C10: the validator treats immutable (frozen) codeword values exactly
like mutable ones — validation, decoding and encoding coincide on the
frozen-valued and the mutable-valued version of any table — and a frozen
table whose codewords all have length at least one passes validation
whenever it is non-empty. -/
theorem claim_c10_frozen_codewords {α : Type} [DecidableEq α] :
    (∀ entries : List (α × List Bool),
      _check_codedict (frozenTable entries) = _check_codedict (plainTable entries))
    ∧ (∀ (entries : List (α × List Bool)) (self : List Bool),
      bitarray_decode (frozenTable entries) self = bitarray_decode (plainTable entries) self)
    ∧ (∀ (entries : List (α × List Bool)) (self : List Bool) (syms : List α),
      bitarray_encode (frozenTable entries) self syms =
        bitarray_encode (plainTable entries) self syms)
    ∧ (∀ entries : List (α × List Bool), entries ≠ [] → (∀ p ∈ entries, p.2 ≠ []) →
      _check_codedict (frozenTable entries) = .ok ()) := by
  refine ⟨check_frozenTable_eq_plain, ?_, ?_, ?_⟩
  · intro entries self
    show (match _check_codedict (frozenTable entries) with
      | .error e => Except.error e
      | .ok _ => match _mk_tree (argEntries (frozenTable entries)) with
        | .error e => .error e
        | .ok t => decodeFrom t t false self) =
      (match _check_codedict (plainTable entries) with
      | .error e => Except.error e
      | .ok _ => match _mk_tree (argEntries (plainTable entries)) with
        | .error e => .error e
        | .ok t => decodeFrom t t false self)
    rw [check_frozenTable_eq_plain, argEntries_frozenTable, argEntries_plainTable]
  · intro entries self syms
    show (match _check_codedict (frozenTable entries) with
      | .error e => (self, some e)
      | .ok _ => encodeAppend (argEntries (frozenTable entries)) syms self) =
      (match _check_codedict (plainTable entries) with
      | .error e => (self, some e)
      | .ok _ => encodeAppend (argEntries (plainTable entries)) syms self)
    rw [check_frozenTable_eq_plain, argEntries_frozenTable, argEntries_plainTable]
  · intro entries hne hcne
    rw [check_frozenTable_eq_plain]
    exact (check_plainTable_ok_iff entries).mpr ⟨hne, hcne⟩

/-- Witness for C10 at the one-entry frozen table `{0: frozenbitarray('1')}`. -/
theorem claim_c10_frozen_codewords_witness :
    ([((0 : Nat), [true])] ≠ ([] : List (Nat × List Bool)))
    ∧ (∀ p ∈ [((0 : Nat), [true])], p.2 ≠ ([] : List Bool))
    ∧ _check_codedict (frozenTable [((0 : Nat), [true])]) = .ok ()
    ∧ _check_codedict (frozenTable [((0 : Nat), [true])]) =
        _check_codedict (plainTable [((0 : Nat), [true])]) := by
  refine ⟨by decide, by decide, ?_, ?_⟩
  · exact (claim_c10_frozen_codewords (α := Nat)).2.2.2 [(0, [true])] (by decide) (by decide)
  · exact (claim_c10_frozen_codewords (α := Nat)).1 [(0, [true])]
